import Mathlib

/-!
# Verification of the rapidcheck generation-and-shrinking engine

Shallow embedding of `src/rapidcheck/detail/Rose.hpp` (the `RoseNode` engine:
`atom`, `generate`, `pick`, `shrink`, `acceptShrink`, `activeGenerator`) and
`src/rapidcheck/detail/Shrink.hpp` (`DivideByTwoIterator`).

Heterogeneous C++ templates are embedded over a small closed universe of
values (`Val`): integers and booleans, which is what the claims exercise.
Type-erased generators (`UntypedGenerator`) become the deep type `Gen`;
type-erased shrink iterators become `SIter`.  The ambient `ImplicitParam`
bindings of Rose.hpp (`ShrunkNode`, `CurrentNode`, `NextChildIndex`) are
threaded explicitly: `ShrunkNode` as the `Ctx` record passed through every
call, `CurrentNode`/`NextChildIndex` structurally (each `regenerate` runs its
producer against its own node with a fresh cursor starting at 0, exactly as
`regenerate` re-binds both params).  Node identity (the C++ `RoseNode *`
stored in the `ShrunkNode` binding) is represented by the node's path from
the root.  C++ recursion is made total with an explicit fuel parameter; all
runs in the claims use concrete fuel and `none` marks only fuel exhaustion
or C++ undefined behaviour (null dereference / out-of-bounds access).
-/

set_option maxRecDepth 8000

namespace RapidCheck

/-- The closed universe of generated values used by the claims:
`int` and `bool` instantiations of the C++ templates. -/
inductive Val : Type where
  | vint (n : Int)
  | vbool (b : Bool)
deriving DecidableEq, Repr

/-- C++ implicit conversion of a generated value to `int`
(`bool` converts to 0/1). -/
def Val.asInt : Val → Int
  | .vint n => n
  | .vbool b => if b then 1 else 0

/-- C++ implicit conversion of a generated value to `bool`
(`int` converts by comparison with zero), as used by
`bool result = generate(generator)` in `RoseNode::shrink`. -/
def Val.asBool : Val → Bool
  | .vint n => decide (n ≠ 0)
  | .vbool b => b

/-- Embedding of `DivideByTwoIterator` (Shrink.hpp lines 13-29):
holds `m_currentValue`. -/
structure DivideByTwoIterator : Type where
  currentValue : Int
deriving DecidableEq, Repr

/-- `DivideByTwoIterator::hasNext`: `m_currentValue != 0`. -/
def DivideByTwoIterator.hasNext (it : DivideByTwoIterator) : Bool :=
  decide (it.currentValue ≠ 0)

/-- `DivideByTwoIterator::next`: `m_currentValue /= 2; return m_currentValue;`
(C++ integer division truncates toward zero, hence `Int.tdiv`). -/
def DivideByTwoIterator.next (it : DivideByTwoIterator) :
    Int × DivideByTwoIterator :=
  let c := it.currentValue.tdiv 2
  (c, ⟨c⟩)

/-- Deeply embedded integer predicates, so that predicate-as-generator
values stay decidably comparable. -/
inductive IPred : Type where
  | ge (t : Int)
  | always (b : Bool)
deriving DecidableEq, Repr

/-- Evaluate a deep predicate. -/
def IPred.eval : IPred → Int → Bool
  | .ge t, x => decide (t ≤ x)
  | .always b, _ => b

/-- The type-erased generator universe (`UntypedGenerator`).  The engine
only ever stores and runs generators; the forms here are the ones the
claims need:

* `const v` — `Constant<T>`.  Modelled from the spec: the engine constructs
  a generator that always yields a specific captured value and shrinks to
  the empty sequence (`Constant` itself is not under src/, only its uses in
  Rose.hpp are).
* `intGen v` — an integer generator producing the fixed value `v` whose
  shrink method returns `DivideByTwoIterator` on the value to be shrunk
  (the "integer with a halving shrinker" of the scenarios).
* `pred p inner` — a predicate-as-generator: produces the boolean
  `p(value)` where `value` is obtained by `pick`ing `inner`; shrinks to
  the empty sequence.
* `pairSum g1 g2` — a two-`pick` composite producing the sum of its two
  sub-values; shrinks to the empty sequence. -/
inductive Gen : Type where
  | const (v : Val)
  | intGen (v : Int)
  | pred (p : IPred) (inner : Gen)
  | pairSum (g1 g2 : Gen)
deriving DecidableEq, Repr

/-- The type-erased shrink-iterator universe (`UntypedShrinkIterator`):
the empty iterator (`NullIterator`) and `DivideByTwoIterator`. -/
inductive SIter : Type where
  | null
  | divByTwo (it : DivideByTwoIterator)
deriving DecidableEq, Repr

/-- `ShrinkIterator::hasNext` on the erased universe. -/
def SIter.hasNext : SIter → Bool
  | .null => false
  | .divByTwo it => it.hasNext

/-- `ShrinkIterator::next` on the erased universe.  `next` on an
exhausted/null iterator is undefined behaviour in C++ (`NullIterator::next`
loops forever); the engine never calls it there, and the value returned in
that case is immaterial. -/
def SIter.next : SIter → Val × SIter
  | .null => (.vint 0, .null)
  | .divByTwo it =>
    let (v, it') := it.next
    (.vint v, .divByTwo it')

/-- `Gen::shrink(value)`: the shrink iterator a generator produces for a
given value.  Constants, predicates and composites shrink to the empty
sequence; the integer generator yields halving-toward-zero on the value. -/
def Gen.shrinkOf : Gen → Val → SIter
  | .const _, _ => .null
  | .intGen _, v => .divByTwo ⟨v.asInt⟩
  | .pred _ _, _ => .null
  | .pairSum _ _, _ => .null

/-- The per-node fields of `RoseNode` other than the children vector:
`m_hasAtom`, `m_atom`, `m_lastGenerator`, `m_acceptedGenerator`,
`m_shrunkGenerator`, `m_shrinkIterator`. -/
structure NodeData : Type where
  hasAtom : Bool := false
  atomVal : Nat := 0
  lastGen : Option Gen := none
  acceptedGen : Option Gen := none
  shrunkGen : Option Gen := none
  shrinkIter : Option SIter := none
deriving DecidableEq, Repr

/-- A `RoseNode`: its slot data plus the owned children (`m_children`).
The parent back-pointer is represented structurally (a node's children are
stored inside it), so `m_parent` needs no separate field. -/
inductive RoseNode : Type where
  | mk (data : NodeData) (children : List RoseNode)

/-- Field access: slot data. -/
def RoseNode.data : RoseNode → NodeData
  | .mk d _ => d

/-- Field access: children. -/
def RoseNode.children : RoseNode → List RoseNode
  | .mk _ cs => cs

/-- Replace the slot data of a node. -/
def RoseNode.withData : RoseNode → NodeData → RoseNode
  | .mk _ cs, d => .mk d cs

/-- Replace the children of a node. -/
def RoseNode.withChildren : RoseNode → List RoseNode → RoseNode
  | .mk d _, cs => .mk d cs

/-- A freshly constructed node (`RoseNode(RoseNode *parent)`): all slots
empty, no atom, no children. -/
def freshNode : RoseNode := .mk {} []

/-- A node's identity: its path (list of child indices) from the root. -/
abbrev Path := List Nat

/-- The ambient `ShrunkNode` implicit-param state visible to a call:
whether a binding exists (`hasBinding()`), and when it does, the node (if
any) that has proposed a shrink this pass. -/
structure Ctx : Type where
  shrunkBound : Bool
  shrunkNode : Option Path
deriving DecidableEq, Repr

/-- The context outside any shrink pass: `ShrunkNode` unbound. -/
def ctxFree : Ctx := ⟨false, none⟩

/-- The context at the start of a shrink pass: `ShrunkNode` bound to null. -/
def ctxPass : Ctx := ⟨true, none⟩

/-- Embedding of `RoseNode::activeGenerator` (Rose.hpp lines 246-256):
`m_shrunkGenerator` if set, else `m_acceptedGenerator` if set, else
`m_lastGenerator`, else null. -/
def activeGenerator (n : RoseNode) : Option Gen :=
  match n.data.shrunkGen with
  | some g => some g
  | none =>
    match n.data.acceptedGen with
    | some g => some g
    | none => n.data.lastGen

/-- A human-readable generator description standing in for
`demangle(typeid(*gen).name())` in `generatorName`. -/
def genTypeName : Gen → String
  | .const _ => "Constant"
  | .intGen _ => "IntGen"
  | .pred _ _ => "Predicate"
  | .pairSum _ _ => "PairSum"

/-- `RoseNode::generatorName` (Rose.hpp lines 259-266): the name of the
active generator, or the empty string when there is none.  Used by
`description()` and hence by `print`. -/
def generatorName (n : RoseNode) : String :=
  match activeGenerator n with
  | none => ""
  | some g => genTypeName g

/-- `RoseNode::stringValue` (Rose.hpp lines 109-121): consults the active
generator; empty string when there is none.  Modelled from the spec: the
type-erased `generateString()` (a textual rendering of the value the
generator would currently produce) is not under src/; it is represented
here by an abstract rendering of the consulted generator. -/
def stringValue (n : RoseNode) : String :=
  match activeGenerator n with
  | none => ""
  | some g => genTypeName g

/-- The random source (`RandomEngine`): a deterministic token stream with
a position.  Modelled from the spec: RandomEngine.hpp is not under src/;
the spec specifies a deterministic stream exposing `nextAtom`. -/
structure RandomEngine : Type where
  stream : Nat → Nat
  pos : Nat

/-- `RandomEngine::nextAtom`: the next token, advancing the position. -/
def RandomEngine.nextAtom (re : RandomEngine) : Nat × RandomEngine :=
  (re.stream re.pos, ⟨re.stream, re.pos + 1⟩)

/-- Embedding of `RoseNode::atom` (Rose.hpp lines 24-33): if no atom has
been drawn at this node, draw one from the ambient random engine and cache
it; otherwise return the cached atom without consulting the engine. -/
def RoseNode.atom (n : RoseNode) (re : RandomEngine) :
    Nat × RoseNode × RandomEngine :=
  if n.data.hasAtom then
    (n.data.atomVal, n, re)
  else
    let (a, re') := re.nextAtom
    (a, n.withData { n.data with hasAtom := true, atomVal := a }, re')

/-- The atom state (`m_hasAtom`, `m_atom`) of the node at a given path,
or `none` if the path does not exist in the tree. -/
def atomAt : RoseNode → Path → Option (Bool × Nat)
  | n, [] => some (n.data.hasAtom, n.data.atomVal)
  | n, i :: p =>
    match n.children.get? i with
    | none => none
    | some c => atomAt c p

/-- The node at a given path, if it exists. -/
def nodeAt : RoseNode → Path → Option RoseNode
  | n, [] => some n
  | n, i :: p =>
    match n.children.get? i with
    | none => none
    | some c => nodeAt c p

/-- Apply an update to the node at a given path (identity when the path
does not exist). -/
def updateAt : RoseNode → Path → (RoseNode → RoseNode) → RoseNode
  | n, [], f => f n
  | n, i :: p, f =>
    match n.children.get? i with
    | none => n
    | some c => n.withChildren (n.children.set i (updateAt c p f))

/-- Embedding of `RoseNode::acceptShrink` (Rose.hpp lines 281-287):
a no-op when `m_shrunkGenerator` is empty; otherwise move it into
`m_acceptedGenerator` (leaving the shrunk slot empty) and clear the
shrink iterator. -/
def acceptShrink (n : RoseNode) : RoseNode :=
  match n.data.shrunkGen with
  | none => n
  | some g =>
    n.withData { n.data with
      acceptedGen := some g, shrunkGen := none, shrinkIter := none }

/-- `m_lastGenerator = UntypedGeneratorUP(new Gen(generator))`: install a
generator into the last slot. -/
def setLast (n : RoseNode) (g : Gen) : RoseNode :=
  n.withData { n.data with lastGen := some g }

/-- Lines 62-65 of Rose.hpp: initialise the shrink iterator from
`generator.shrink(value)` and, when the accepted slot is empty, snapshot
the generator into it as the fallback. -/
def armShrink (n : RoseNode) (g : Gen) (v : Val) : RoseNode :=
  n.withData { n.data with
    shrinkIter := some (g.shrinkOf v),
    acceptedGen :=
      match n.data.acceptedGen with
      | none => some g
      | some a => some a }

/-- Lines 69-73 of Rose.hpp: record the advanced iterator and wrap the
drawn candidate in a constant generator installed as
`m_shrunkGenerator`. -/
def installShrunk (n : RoseNode) (cand : Val) (it' : SIter) : RoseNode :=
  n.withData { n.data with
    shrinkIter := some it', shrunkGen := some (.const cand) }

/-- Line 77 of Rose.hpp: `m_shrunkGenerator = nullptr` on exhaustion. -/
def clearShrunk (n : RoseNode) : RoseNode :=
  n.withData { n.data with shrunkGen := none }

mutual

/-- Embedding of `RoseNode::generate` (Rose.hpp lines 46-82) at the node
with the given path.  Installs the supplied generator into
`m_lastGenerator`; when a shrink pass is under way and no node has yet
proposed (`ShrunkNode` bound and null), tries to shrink at this node:
regenerate first if no iterator is live (returning immediately if that
made a descendant propose), else/then draw the next candidate from the
iterator into `m_shrunkGenerator` and mark this node as the proposer, or
clear the shrunk slot on exhaustion; finally regenerate. -/
def generate : Nat → Path → RoseNode → Gen → Ctx →
    Option (Val × RoseNode × Ctx)
  | 0, _, _, _, _ => none
  | fuel + 1, path, n0, g, ctx =>
    let n := setLast n0 g
    if ctx.shrunkBound = true ∧ ctx.shrunkNode = none then
      match n.data.shrinkIter with
      | none =>
        match regenerate fuel path n ctx with
        | none => none
        | some (v, n1, ctx1) =>
          if ctx1.shrunkNode = none then
            tryNext fuel path (armShrink n1 g v) ctx1
          else
            some (v, n1, ctx1)
      | some _ => tryNext fuel path n ctx
    else
      regenerate fuel path n ctx

/-- The tail of `RoseNode::generate` (Rose.hpp lines 68-81): if the live
shrink iterator has a next candidate, advance it, wrap the candidate in a
constant generator installed as `m_shrunkGenerator` and point the ambient
`ShrunkNode` at this node; otherwise clear the shrunk slot.  Then
regenerate. -/
def tryNext : Nat → Path → RoseNode → Ctx → Option (Val × RoseNode × Ctx)
  | 0, _, _, _ => none
  | fuel + 1, path, n, ctx =>
    match n.data.shrinkIter with
    | none => none
    | some it =>
      if it.hasNext then
        regenerate fuel path (installShrunk n it.next.1 it.next.2)
          { ctx with shrunkNode := some path }
      else
        regenerate fuel path (clearShrunk n) ctx

/-- Embedding of `RoseNode::regenerate` (Rose.hpp lines 270-278): rebinds
`CurrentNode` to this node and `NextChildIndex` to 0 (structurally: the
producer runs against this node with cursor 0) and invokes the active
generator; null active generator is the C++ null dereference. -/
def regenerate : Nat → Path → RoseNode → Ctx → Option (Val × RoseNode × Ctx)
  | 0, _, _, _ => none
  | fuel + 1, path, n, ctx =>
    match activeGenerator n with
    | none => none
    | some g =>
      match produce fuel path n 0 g ctx with
      | none => none
      | some (v, n', _, ctx') => some (v, n', ctx')

/-- Run a generator's produce capability at a node, threading the
`NextChildIndex` cursor: constants and the integer generator yield their
value; the predicate generator `pick`s its inner generator and applies the
predicate; the composite makes two `pick`s and sums. -/
def produce : Nat → Path → RoseNode → Nat → Gen → Ctx →
    Option (Val × RoseNode × Nat × Ctx)
  | 0, _, _, _, _, _ => none
  | fuel + 1, path, n, idx, g, ctx =>
    match g with
    | .const v => some (v, n, idx, ctx)
    | .intGen v => some (.vint v, n, idx, ctx)
    | .pred p inner =>
      match pick fuel path n idx inner ctx with
      | none => none
      | some (v, n', idx', ctx') =>
        some (.vbool (p.eval v.asInt), n', idx', ctx')
    | .pairSum g1 g2 =>
      match pick fuel path n idx g1 ctx with
      | none => none
      | some (v1, n1, idx1, ctx1) =>
        match pick fuel path n1 idx1 g2 ctx1 with
        | none => none
        | some (v2, n2, idx2, ctx2) =>
          some (.vint (v1.asInt + v2.asInt), n2, idx2, ctx2)

/-- Embedding of `RoseNode::pick` (Rose.hpp lines 86-94): read the cursor;
if it is at or past the child count, append one fresh child; increment the
cursor; `generate` on the child at the original cursor position. -/
def pick : Nat → Path → RoseNode → Nat → Gen → Ctx →
    Option (Val × RoseNode × Nat × Ctx)
  | 0, _, _, _, _, _ => none
  | fuel + 1, path, n, idx, g, ctx =>
    let n' := if n.children.length ≤ idx then
        n.withChildren (n.children ++ [freshNode])
      else n
    match n'.children.get? idx with
    | none => none
    | some c =>
      match generate fuel (path ++ [idx]) c g ctx with
      | none => none
      | some (v, c', ctx') =>
        some (v, n'.withChildren (n'.children.set idx c'), idx + 1, ctx')

end

/-- The loop of `RoseNode::shrink` (Rose.hpp lines 129-145) with the tries
counter as accumulator: each pass rebinds `ShrunkNode` to null, increments
`numTries` and calls `generate`; if no node proposed, return
`(false, numTries)`; if the result converted to true (the shrink
over-simplified), loop; otherwise accept the proposal at the proposing
node and return `(true, numTries)`.  The first argument bounds the number
of passes (fuel). -/
def shrinkAux : Nat → Nat → RoseNode → Gen → Nat →
    Option (Bool × Nat × RoseNode)
  | 0, _, _, _, _ => none
  | passes + 1, genFuel, root, g, numTries =>
    match generate genFuel [] root g ctxPass with
    | none => none
    | some (v, root', ctx') =>
      match ctx'.shrunkNode with
      | none => some (false, numTries + 1, root')
      | some p =>
        if v.asBool then
          shrinkAux passes genFuel root' g (numTries + 1)
        else
          some (true, numTries + 1, updateAt root' p acceptShrink)

/-- `RoseNode::shrink`: run the loop starting with zero tries. -/
def shrink (passes genFuel : Nat) (root : RoseNode) (g : Gen) :
    Option (Bool × Nat × RoseNode) :=
  shrinkAux passes genFuel root g 0

/-- The state of the tree after a number of *rejected* passes: passes in
which some node proposed a shrink and the generated boolean converted to
true (shrink over-simplified), so that the loop of `RoseNode::shrink`
continues.  Used to characterise the loop. -/
def rejectedPasses : Nat → Nat → RoseNode → Gen → Option RoseNode
  | 0, _, root, _ => some root
  | k + 1, genFuel, root, g =>
    match generate genFuel [] root g ctxPass with
    | none => none
    | some (v, root', ctx') =>
      if ctx'.shrunkNode ≠ none ∧ v.asBool = true then
        rejectedPasses k genFuel root' g
      else none

/-- Build the tree a driver has after its initial (non-shrinking)
`generate` call on a fresh root: `ShrunkNode` is unbound outside
`shrink`, so the call only installs `m_lastGenerator` slots and creates
children. -/
def setupRoot (g : Gen) : RoseNode :=
  match generate 30 [] freshNode g ctxFree with
  | some (_, r, _) => r
  | none => freshNode

/-- Scenario of claim C2: predicate-as-generator returning `value >= 10`
over an integer generated as 100 with the halving shrinker. -/
def scenarioGe10 : Gen := .pred (.ge 10) (.intGen 100)

/-- The generated tree of the C2 scenario. -/
def rootGe10 : RoseNode := setupRoot scenarioGe10

/-- Scenario of claim C3: always-true predicate over the integer 0 with
the halving shrinker (no falsification possible). -/
def scenarioTrue0 : Gen := .pred (.always true) (.intGen 0)

/-- The generated tree of the C3 scenario. -/
def rootTrue0 : RoseNode := setupRoot scenarioTrue0

/-- An always-false predicate over the integer 100 with the halving
shrinker: every proposed shrink reproduces the failure, making the
difference between single-acceptance and fixpoint driving visible. -/
def scenarioFalse100 : Gen := .pred (.always false) (.intGen 100)

/-- The generated tree of the always-false scenario. -/
def rootFalse100 : RoseNode := setupRoot scenarioFalse100

/-- The sequence of values `DivideByTwoIterator` started on a non-negative
`v` yields: `v/2, v/4, ...` down to and including the first zero (empty
for `v = 0`). -/
def divSeq (v : Nat) : List Nat :=
  if h : v = 0 then []
  else v / 2 :: divSeq (v / 2)
termination_by v
decreasing_by exact Nat.div_lt_self (Nat.pos_of_ne_zero h) one_lt_two

/-- Drain a `DivideByTwoIterator` by the engine's protocol (`next` only
while `hasNext`), collecting the yielded values; fuel-bounded. -/
def iterRun : Nat → DivideByTwoIterator → List Int
  | 0, _ => []
  | fuel + 1, it =>
    if it.hasNext then
      let (v, it') := it.next
      v :: iterRun fuel it'
    else []

/-! ## Structural helper lemmas -/

@[simp]
theorem RoseNode.data_withData (n : RoseNode) (d : NodeData) :
    (n.withData d).data = d := by cases n; rfl

@[simp]
theorem RoseNode.children_withData (n : RoseNode) (d : NodeData) :
    (n.withData d).children = n.children := by cases n; rfl

@[simp]
theorem RoseNode.data_withChildren (n : RoseNode) (cs : List RoseNode) :
    (n.withChildren cs).data = n.data := by cases n; rfl

@[simp]
theorem RoseNode.children_withChildren (n : RoseNode) (cs : List RoseNode) :
    (n.withChildren cs).children = cs := by cases n; rfl

@[simp]
theorem RoseNode.withData_data (n : RoseNode) : n.withData n.data = n := by
  cases n; rfl

@[simp]
theorem RoseNode.withChildren_children (n : RoseNode) :
    n.withChildren n.children = n := by cases n; rfl

theorem RoseNode.withData_withData (n : RoseNode) (d d' : NodeData) :
    (n.withData d).withData d' = n.withData d' := by cases n; rfl

@[simp]
theorem setLast_children (n : RoseNode) (g : Gen) :
    (setLast n g).children = n.children := by cases n; rfl

@[simp]
theorem setLast_lastGen (n : RoseNode) (g : Gen) :
    (setLast n g).data.lastGen = some g := by cases n; rfl

@[simp]
theorem setLast_acceptedGen (n : RoseNode) (g : Gen) :
    (setLast n g).data.acceptedGen = n.data.acceptedGen := by cases n; rfl

@[simp]
theorem setLast_shrunkGen (n : RoseNode) (g : Gen) :
    (setLast n g).data.shrunkGen = n.data.shrunkGen := by cases n; rfl

@[simp]
theorem setLast_shrinkIter (n : RoseNode) (g : Gen) :
    (setLast n g).data.shrinkIter = n.data.shrinkIter := by cases n; rfl

@[simp]
theorem setLast_hasAtom (n : RoseNode) (g : Gen) :
    (setLast n g).data.hasAtom = n.data.hasAtom := by cases n; rfl

@[simp]
theorem setLast_atomVal (n : RoseNode) (g : Gen) :
    (setLast n g).data.atomVal = n.data.atomVal := by cases n; rfl

@[simp]
theorem armShrink_children (n : RoseNode) (g : Gen) (v : Val) :
    (armShrink n g v).children = n.children := by cases n; rfl

@[simp]
theorem armShrink_lastGen (n : RoseNode) (g : Gen) (v : Val) :
    (armShrink n g v).data.lastGen = n.data.lastGen := by cases n; rfl

@[simp]
theorem armShrink_acceptedGen (n : RoseNode) (g : Gen) (v : Val) :
    (armShrink n g v).data.acceptedGen =
      some (n.data.acceptedGen.getD g) := by
  cases n with
  | mk d cs =>
    cases hd : d.acceptedGen <;>
      simp [armShrink, RoseNode.data, RoseNode.withData, hd]

@[simp]
theorem armShrink_shrunkGen (n : RoseNode) (g : Gen) (v : Val) :
    (armShrink n g v).data.shrunkGen = n.data.shrunkGen := by cases n; rfl

@[simp]
theorem armShrink_shrinkIter (n : RoseNode) (g : Gen) (v : Val) :
    (armShrink n g v).data.shrinkIter = some (g.shrinkOf v) := by
  cases n; rfl

@[simp]
theorem armShrink_hasAtom (n : RoseNode) (g : Gen) (v : Val) :
    (armShrink n g v).data.hasAtom = n.data.hasAtom := by cases n; rfl

@[simp]
theorem armShrink_atomVal (n : RoseNode) (g : Gen) (v : Val) :
    (armShrink n g v).data.atomVal = n.data.atomVal := by cases n; rfl

@[simp]
theorem installShrunk_children (n : RoseNode) (cand : Val) (it' : SIter) :
    (installShrunk n cand it').children = n.children := by cases n; rfl

@[simp]
theorem installShrunk_lastGen (n : RoseNode) (cand : Val) (it' : SIter) :
    (installShrunk n cand it').data.lastGen = n.data.lastGen := by
  cases n; rfl

@[simp]
theorem installShrunk_acceptedGen (n : RoseNode) (cand : Val) (it' : SIter) :
    (installShrunk n cand it').data.acceptedGen = n.data.acceptedGen := by
  cases n; rfl

@[simp]
theorem installShrunk_shrunkGen (n : RoseNode) (cand : Val) (it' : SIter) :
    (installShrunk n cand it').data.shrunkGen = some (.const cand) := by
  cases n; rfl

@[simp]
theorem installShrunk_shrinkIter (n : RoseNode) (cand : Val) (it' : SIter) :
    (installShrunk n cand it').data.shrinkIter = some it' := by cases n; rfl

@[simp]
theorem installShrunk_hasAtom (n : RoseNode) (cand : Val) (it' : SIter) :
    (installShrunk n cand it').data.hasAtom = n.data.hasAtom := by
  cases n; rfl

@[simp]
theorem installShrunk_atomVal (n : RoseNode) (cand : Val) (it' : SIter) :
    (installShrunk n cand it').data.atomVal = n.data.atomVal := by
  cases n; rfl

@[simp]
theorem clearShrunk_children (n : RoseNode) :
    (clearShrunk n).children = n.children := by cases n; rfl

@[simp]
theorem clearShrunk_lastGen (n : RoseNode) :
    (clearShrunk n).data.lastGen = n.data.lastGen := by cases n; rfl

@[simp]
theorem clearShrunk_acceptedGen (n : RoseNode) :
    (clearShrunk n).data.acceptedGen = n.data.acceptedGen := by cases n; rfl

@[simp]
theorem clearShrunk_shrunkGen (n : RoseNode) :
    (clearShrunk n).data.shrunkGen = none := by cases n; rfl

@[simp]
theorem clearShrunk_shrinkIter (n : RoseNode) :
    (clearShrunk n).data.shrinkIter = n.data.shrinkIter := by cases n; rfl

@[simp]
theorem clearShrunk_hasAtom (n : RoseNode) :
    (clearShrunk n).data.hasAtom = n.data.hasAtom := by cases n; rfl

@[simp]
theorem clearShrunk_atomVal (n : RoseNode) :
    (clearShrunk n).data.atomVal = n.data.atomVal := by cases n; rfl

/-! ## Claim C10 — acceptShrink with an empty shrunk slot is a no-op -/

/-- C10: calling `acceptShrink` on a node whose shrunk slot is empty is a
no-op: the accepted slot, the shrink iterator, and every other field of
the node (and its children) are left unchanged. -/
theorem acceptShrink_noop (n : RoseNode) (h : n.data.shrunkGen = none) :
    acceptShrink n = n := by
  unfold acceptShrink
  rw [h]

/-- A concrete node with a live accepted generator and iterator but no
pending shrunk generator. -/
def egAccepted : RoseNode :=
  .mk { acceptedGen := some (.intGen 2), shrinkIter := some .null } []

/-- Witness for `acceptShrink_noop` at `egAccepted`. -/
theorem acceptShrink_noop_witness :
    egAccepted.data.shrunkGen = none ∧
    acceptShrink egAccepted = egAccepted :=
  ⟨rfl, acceptShrink_noop _ rfl⟩

/-! ## Claim C5 — the active generator priority chain -/

/-- C5: for every node, the active generator consulted by `regenerate`,
`stringValue` and `print` (via `generatorName`) is the shrunk generator if
present, else the accepted generator if present, else the last generator,
and is null exactly when all three slots are empty; `regenerate` on a node
with no active generator fails (C++ null dereference). -/
theorem activeGenerator_priority (n : RoseNode) :
    (∀ g, n.data.shrunkGen = some g → activeGenerator n = some g) ∧
    (n.data.shrunkGen = none → ∀ g, n.data.acceptedGen = some g →
      activeGenerator n = some g) ∧
    (n.data.shrunkGen = none → n.data.acceptedGen = none →
      activeGenerator n = n.data.lastGen) ∧
    (activeGenerator n = none ↔
      n.data.shrunkGen = none ∧ n.data.acceptedGen = none ∧
        n.data.lastGen = none) ∧
    (∀ fuel path ctx, activeGenerator n = none →
      regenerate (fuel + 1) path n ctx = none) ∧
    (stringValue n = match activeGenerator n with
      | none => "" | some g => genTypeName g) ∧
    (generatorName n = match activeGenerator n with
      | none => "" | some g => genTypeName g) := by
  refine ⟨?_, ?_, ?_, ?_, ?_, ?_, ?_⟩
  · intro g h; unfold activeGenerator; rw [h]
  · intro hs g h; unfold activeGenerator; rw [hs, h]
  · intro hs ha; unfold activeGenerator; rw [hs, ha]
  · unfold activeGenerator
    rcases hs : n.data.shrunkGen with _ | g <;>
      rcases ha : n.data.acceptedGen with _ | a <;> simp
  · intro fuel path ctx h
    unfold regenerate
    rw [h]
  · unfold stringValue; rfl
  · unfold generatorName; rfl

/-- A concrete node with all three generator slots occupied by distinct
generators. -/
def egFullSlots : RoseNode :=
  .mk { lastGen := some (.intGen 1), acceptedGen := some (.intGen 2),
        shrunkGen := some (.intGen 3) } []

/-- Witness for `activeGenerator_priority` at `egFullSlots`: the shrunk
generator wins. -/
theorem activeGenerator_priority_witness :
    egFullSlots.data.shrunkGen = some (.intGen 3) ∧
    activeGenerator egFullSlots = some (.intGen 3) :=
  ⟨rfl, (activeGenerator_priority _).1 _ rfl⟩

/-! ## Claim C9 — the halving iterator -/

theorem divSeq_zero : divSeq 0 = [] := by
  unfold divSeq; simp

theorem divSeq_succ (v : Nat) (h : v ≠ 0) :
    divSeq v = v / 2 :: divSeq (v / 2) := by
  conv_lhs => unfold divSeq
  simp [h]

theorem divSeq_get (v : Nat) : ∀ i, i < (divSeq v).length →
    (divSeq v).get? i = some (v / 2 ^ (i + 1)) := by
  induction v using Nat.strong_induction_on with
  | _ v ih =>
    intro i hi
    by_cases h : v = 0
    · subst h; rw [divSeq_zero] at hi; simp at hi
    · rw [divSeq_succ v h] at hi ⊢
      cases i with
      | zero => simp
      | succ i =>
        simp only [List.length_cons, Nat.add_lt_add_iff_right] at hi
        simp only [List.get?_cons_succ]
        rw [ih (v / 2) (Nat.div_lt_self (Nat.pos_of_ne_zero h) one_lt_two)
          i hi]
        rw [Nat.div_div_eq_div_mul]
        congr 2
        ring

theorem divSeq_pow_length (v : Nat) : v / 2 ^ (divSeq v).length = 0 := by
  induction v using Nat.strong_induction_on with
  | _ v ih =>
    by_cases h : v = 0
    · subst h; simp
    · rw [divSeq_succ v h]
      simp only [List.length_cons]
      rw [show (2 : Nat) ^ ((divSeq (v / 2)).length + 1) =
          2 * 2 ^ (divSeq (v / 2)).length by ring,
        ← Nat.div_div_eq_div_mul]
      exact ih (v / 2) (Nat.div_lt_self (Nat.pos_of_ne_zero h) one_lt_two)

theorem divSeq_pow_pos (v : Nat) : ∀ i, i < (divSeq v).length →
    v / 2 ^ i ≠ 0 := by
  induction v using Nat.strong_induction_on with
  | _ v ih =>
    intro i hi
    by_cases h : v = 0
    · subst h; rw [divSeq_zero] at hi; simp at hi
    · rw [divSeq_succ v h] at hi
      cases i with
      | zero => simpa using h
      | succ i =>
        simp only [List.length_cons, Nat.add_lt_add_iff_right] at hi
        rw [show (2 : Nat) ^ (i + 1) = 2 * 2 ^ i by ring,
          ← Nat.div_div_eq_div_mul]
        exact ih (v / 2) (Nat.div_lt_self (Nat.pos_of_ne_zero h) one_lt_two)
          i hi

theorem divSeq_getLast : ∀ v : Nat, v ≠ 0 → (divSeq v).getLast? = some 0 := by
  intro v
  induction v using Nat.strong_induction_on with
  | _ v ih =>
    intro h
    rw [divSeq_succ v h]
    by_cases h2 : v / 2 = 0
    · rw [h2, divSeq_zero]
      rfl
    · have hlt := Nat.div_lt_self (Nat.pos_of_ne_zero h) one_lt_two
      have hrec := ih (v / 2) hlt h2
      rw [divSeq_succ (v / 2) h2] at hrec ⊢
      rw [List.getLast?_cons_cons]
      exact hrec

theorem iterRun_divSeq : ∀ fuel v : Nat, (divSeq v).length ≤ fuel →
    iterRun fuel ⟨(v : Int)⟩ = (divSeq v).map Int.ofNat := by
  intro fuel
  induction fuel with
  | zero =>
    intro v hv
    rw [Nat.le_zero] at hv
    rw [List.eq_nil_of_length_eq_zero hv]
    rfl
  | succ fuel ih =>
    intro v hv
    by_cases h : v = 0
    · subst h
      rw [divSeq_zero]
      simp [iterRun, DivideByTwoIterator.hasNext]
    · have hasN : (⟨(v : Int)⟩ : DivideByTwoIterator).hasNext = true := by
        simp only [DivideByTwoIterator.hasNext, decide_eq_true_eq]
        exact_mod_cast h
      rw [divSeq_succ v h]
      rw [divSeq_succ v h] at hv
      simp only [List.length_cons, Nat.add_le_add_iff_right] at hv
      unfold iterRun
      rw [hasN]
      simp only [if_true, DivideByTwoIterator.next]
      have ht : (v : Int).tdiv 2 = ((v / 2 : Nat) : Int) := rfl
      rw [ht, ih (v / 2) hv]
      rfl

/-- C9: for every non-negative `v`, the halve-toward-zero iterator on `v`
yields exactly the sequence `v/2, v/4, ...` under integer division —
`divSeq v` — which is empty exactly when `v = 0`, whose `i`-th element is
`v / 2^(i+1)` with every proper prefix value nonzero, and whose final
element is 0; and `hasNext` is false exactly when the current value is
zero. -/
theorem divideByTwoIterator_spec :
    (∀ c : Int, (DivideByTwoIterator.mk c).hasNext = false ↔ c = 0) ∧
    (∀ v : Nat,
      (divSeq v = [] ↔ v = 0) ∧
      (∀ i, i < (divSeq v).length →
        (divSeq v).get? i = some (v / 2 ^ (i + 1))) ∧
      (v / 2 ^ (divSeq v).length = 0) ∧
      (∀ i, i < (divSeq v).length → v / 2 ^ i ≠ 0) ∧
      (v ≠ 0 → (divSeq v).getLast? = some 0) ∧
      (∀ fuel, (divSeq v).length ≤ fuel →
        iterRun fuel ⟨(v : Int)⟩ = (divSeq v).map Int.ofNat)) := by
  constructor
  · intro c
    simp [DivideByTwoIterator.hasNext]
  · intro v
    refine ⟨?_, divSeq_get v, divSeq_pow_length v, divSeq_pow_pos v,
      divSeq_getLast v, fun fuel h => iterRun_divSeq fuel v h⟩
    constructor
    · intro he
      by_contra h
      rw [divSeq_succ v h] at he
      exact List.cons_ne_nil _ _ he
    · intro h; subst h; exact divSeq_zero

theorem divSeq_five : divSeq 5 = [2, 1, 0] := by
  rw [divSeq_succ 5 (by decide)]
  norm_num
  rw [divSeq_succ 2 (by decide)]
  norm_num
  rw [divSeq_succ 1 (by decide)]
  norm_num
  exact divSeq_zero

/-- Witness for `divideByTwoIterator_spec` at `v = 5`:
the yielded sequence is `[2, 1, 0]`. -/
theorem divideByTwoIterator_spec_witness :
    ((DivideByTwoIterator.mk 0).hasNext = false ↔ (0 : Int) = 0) ∧
    (divSeq 5).get? 0 = some (5 / 2 ^ 1) ∧
    (divSeq 5).getLast? = some 0 ∧
    iterRun 3 ⟨((5 : Nat) : Int)⟩ = (divSeq 5).map Int.ofNat ∧
    iterRun 3 ⟨((5 : Nat) : Int)⟩ = [2, 1, 0] :=
  ⟨divideByTwoIterator_spec.1 0,
   (divideByTwoIterator_spec.2 5).2.1 0 (by rw [divSeq_five]; decide),
   (divideByTwoIterator_spec.2 5).2.2.2.2.1 (by decide),
   (divideByTwoIterator_spec.2 5).2.2.2.2.2 3 (by rw [divSeq_five]; decide),
   by rw [(divideByTwoIterator_spec.2 5).2.2.2.2.2 3
        (by rw [divSeq_five]; decide), divSeq_five]; rfl⟩

/-! ## Data preservation: running a producer at a node never touches the
node's own slot data (only `pick` updates children). -/

theorem pick_data_eq (fuel : Nat) (path : Path) (n : RoseNode) (idx : Nat)
    (g : Gen) (ctx : Ctx) (v : Val) (n' : RoseNode) (idx' : Nat) (ctx' : Ctx)
    (h : pick fuel path n idx g ctx = some (v, n', idx', ctx')) :
    n'.data = n.data := by
  cases fuel with
  | zero => simp [pick] at h
  | succ f =>
    simp only [pick] at h
    split at h
    · exact absurd h (by simp)
    · split at h
      · exact absurd h (by simp)
      · simp only [Option.some.injEq, Prod.mk.injEq] at h
        obtain ⟨-, hn, -, -⟩ := h
        subst hn
        split <;> simp

theorem produce_data_eq (fuel : Nat) (path : Path) (n : RoseNode) (idx : Nat)
    (g : Gen) (ctx : Ctx) (v : Val) (n' : RoseNode) (idx' : Nat) (ctx' : Ctx)
    (h : produce fuel path n idx g ctx = some (v, n', idx', ctx')) :
    n'.data = n.data := by
  cases fuel with
  | zero => simp [produce] at h
  | succ f =>
    cases g with
    | const w =>
      simp only [produce, Option.some.injEq, Prod.mk.injEq] at h
      obtain ⟨-, hn, -, -⟩ := h
      rw [← hn]
    | intGen w =>
      simp only [produce, Option.some.injEq, Prod.mk.injEq] at h
      obtain ⟨-, hn, -, -⟩ := h
      rw [← hn]
    | pred p inner =>
      simp only [produce] at h
      split at h
      · simp at h
      · rename_i w m j cx hp
        simp only [Option.some.injEq, Prod.mk.injEq] at h
        obtain ⟨-, hn, -, -⟩ := h
        rw [← hn]
        exact pick_data_eq f path n idx inner ctx w m j cx hp
    | pairSum g1 g2 =>
      simp only [produce] at h
      split at h
      · simp at h
      · rename_i w1 m1 j1 cx1 hp
        split at h
        · simp at h
        · rename_i w2 m2 j2 cx2 hp2
          simp only [Option.some.injEq, Prod.mk.injEq] at h
          obtain ⟨-, hn, -, -⟩ := h
          rw [← hn]
          rw [pick_data_eq f path m1 j1 g2 cx1 w2 m2 j2 cx2 hp2]
          exact pick_data_eq f path n idx g1 ctx w1 m1 j1 cx1 hp

theorem regenerate_data_eq (fuel : Nat) (path : Path) (n : RoseNode)
    (ctx : Ctx) (v : Val) (n' : RoseNode) (ctx' : Ctx)
    (h : regenerate fuel path n ctx = some (v, n', ctx')) :
    n'.data = n.data := by
  cases fuel with
  | zero => simp [regenerate] at h
  | succ f =>
    simp only [regenerate] at h
    split at h
    · simp at h
    · rename_i g ha
      split at h
      · simp at h
      · rename_i w m j cx hp
        simp only [Option.some.injEq, Prod.mk.injEq] at h
        obtain ⟨-, hn, -⟩ := h
        rw [← hn]
        exact produce_data_eq f path n 0 g ctx w m j cx hp

/-! ## Claim C4 — descendants have shrink priority -/

/-- C4: during a shrink pass (ambient `ShrunkNode` bound and null), a node
with no live shrink iterator that regenerates and thereby causes a
descendant to install a proposal (the binding becomes non-null) returns
the regenerated value immediately: its own shrink iterator stays
uninitialised, its shrunk and accepted slots are untouched, and the
proposal recorded in the ambient binding is the descendant's. -/
theorem generate_descendant_priority (fuel : Nat) (path : Path)
    (n : RoseNode) (g : Gen) (ctx : Ctx) (v : Val) (n1 : RoseNode)
    (ctx1 : Ctx) (q : Path)
    (hb : ctx.shrunkBound = true) (hn : ctx.shrunkNode = none)
    (hit : n.data.shrinkIter = none)
    (hr : regenerate fuel path (setLast n g) ctx = some (v, n1, ctx1))
    (hq : ctx1.shrunkNode = some q) :
    generate (fuel + 1) path n g ctx = some (v, n1, ctx1) ∧
    n1.data.shrinkIter = none ∧
    n1.data.shrunkGen = n.data.shrunkGen ∧
    n1.data.acceptedGen = n.data.acceptedGen ∧
    ctx1.shrunkNode = some q := by
  have hd := regenerate_data_eq fuel path (setLast n g) ctx v n1 ctx1 hr
  refine ⟨?_,
    by rw [show n1.data.shrinkIter = (setLast n g).data.shrinkIter
        from congrArg NodeData.shrinkIter hd, setLast_shrinkIter]; exact hit,
    by rw [show n1.data.shrunkGen = (setLast n g).data.shrunkGen
        from congrArg NodeData.shrunkGen hd, setLast_shrunkGen],
    by rw [show n1.data.acceptedGen = (setLast n g).data.acceptedGen
        from congrArg NodeData.acceptedGen hd, setLast_acceptedGen],
    hq⟩
  simp only [generate]
  rw [if_pos ⟨hb, hn⟩]
  rw [setLast_shrinkIter, hit]
  simp only [hr, hq]
  simp

/-- Witness for `generate_descendant_priority`: in the C2 scenario tree,
regenerating the root during a fresh pass makes the child (path `[0]`)
propose, and `generate` returns that value with the root's iterator still
uninitialised. -/
theorem generate_descendant_priority_witness : ∃ v n1 ctx1,
    regenerate 30 []
      (rootGe10.withData { rootGe10.data with lastGen := some scenarioGe10 })
      ctxPass = some (v, n1, ctx1) ∧
    ctx1.shrunkNode = some [0] ∧
    generate 31 [] rootGe10 scenarioGe10 ctxPass = some (v, n1, ctx1) ∧
    n1.data.shrinkIter = none := by
  refine ⟨_, _, _, rfl, rfl, ?_, ?_⟩
  · exact (generate_descendant_priority 30 [] rootGe10 scenarioGe10 ctxPass
      _ _ _ [0] rfl rfl rfl rfl rfl).1
  · exact (generate_descendant_priority 30 [] rootGe10 scenarioGe10 ctxPass
      _ _ _ [0] rfl rfl rfl rfl rfl).2.1

/-! ## Claim C7 — pick routing and child stability -/

/-- C7: a successful `pick` with cursor `k` routes to child index `k`
(the cursor advances to `k + 1`, so the `k`-th `pick` of a regeneration —
whose cursor starts at 0 — has cursor `k`); a fresh child is appended, at
the tail, exactly when the cursor is at or past the child count (and then
the cursor equals the count); all children other than index `k` are
untouched, so a regeneration after `k` picks reuses the same `k` children
in the same order. -/
theorem pick_routing (fuel : Nat) (path : Path) (n : RoseNode) (k : Nat)
    (g : Gen) (ctx : Ctx) (v : Val) (n2 : RoseNode) (k2 : Nat) (ctx2 : Ctx)
    (h : pick (fuel + 1) path n k g ctx = some (v, n2, k2, ctx2)) :
    k2 = k + 1 ∧
    k < n2.children.length ∧
    n.children.length ≤ n2.children.length ∧
    (∀ j, j ≠ k → n2.children.get? j = n.children.get? j) ∧
    (n.children.length ≤ k →
      k = n.children.length ∧
      n2.children.length = n.children.length + 1 ∧
      (if n.children.length ≤ k then n.children ++ [freshNode]
        else n.children).get? k = some freshNode) ∧
    (k < n.children.length → n2.children.length = n.children.length) ∧
    (∃ c c',
      (if n.children.length ≤ k then n.children ++ [freshNode]
        else n.children).get? k = some c ∧
      generate fuel (path ++ [k]) c g ctx = some (v, c', ctx2) ∧
      n2.children.get? k = some c') := by
  by_cases hlen : n.children.length ≤ k
  · simp only [pick, hlen, if_true, RoseNode.children_withChildren] at h
    split at h
    · simp at h
    · rename_i c hc
      have hk : k = n.children.length := by
        rcases Nat.lt_or_ge k (n.children.length + 1) with hk1 | hk1
        · omega
        · exfalso
          rw [List.get?_eq_none.mpr (by simpa using hk1)] at hc
          exact Option.noConfusion hc
      have hcfresh : c = freshNode := by
        rw [List.get?_append_right hlen, hk] at hc
        simp at hc
        exact hc.symm
      split at h
      · simp at h
      · rename_i w c' cx hg
        simp only [Option.some.injEq, Prod.mk.injEq] at h
        obtain ⟨hw, hn2, hk2, hcx⟩ := h
        subst hw; subst hk2; subst hcx
        have hch : n2.children = (n.children ++ [freshNode]).set k c' := by
          rw [← hn2]; simp
        have hlen2 : n2.children.length = n.children.length + 1 := by
          rw [hch]; simp
        refine ⟨rfl, by omega, by omega, ?_, ?_, ?_, ?_⟩
        · intro j hj
          rw [hch, List.get?_set_ne _ _ (fun he => hj he.symm)]
          rcases Nat.lt_or_ge j n.children.length with hj1 | hj1
          · exact List.get?_append hj1
          · rw [List.get?_eq_none.mpr hj1,
              List.get?_append_right hj1]
            have hj2 : 1 ≤ j - n.children.length := by omega
            rw [List.get?_eq_none.mpr (by simpa using hj2)]
        · intro _
          exact ⟨hk, hlen2, by rw [if_pos hlen, hc, hcfresh]⟩
        · intro hcon; omega
        · refine ⟨c, c', by rw [if_pos hlen]; exact hc, hg, ?_⟩
          rw [hch, List.get?_set_eq_of_lt c']
          simp only [List.length_append, List.length_singleton]
          omega
  · push_neg at hlen
    simp only [pick, not_le.mpr hlen, if_false] at h
    split at h
    · simp at h
    · rename_i c hc
      split at h
      · simp at h
      · rename_i w c' cx hg
        simp only [Option.some.injEq, Prod.mk.injEq] at h
        obtain ⟨hw, hn2, hk2, hcx⟩ := h
        subst hw; subst hk2; subst hcx
        have hch : n2.children = n.children.set k c' := by
          rw [← hn2]; simp
        have hlen2 : n2.children.length = n.children.length := by
          rw [hch]; simp
        refine ⟨rfl, by omega, by omega, ?_, ?_, fun _ => hlen2, ?_⟩
        · intro j hj
          rw [hch, List.get?_set_ne _ _ (fun he => hj he.symm)]
        · intro hcon; omega
        · refine ⟨c, c', by rw [if_neg (not_le.mpr hlen)]; exact hc, hg, ?_⟩
          rw [hch, List.get?_set_eq_of_lt c' hlen]

/-- Witness for `pick_routing`: a concrete `pick` at cursor 0 on the C2
scenario tree (one existing child) routes to child 0 without appending. -/
theorem pick_routing_witness : ∃ v n2 ctx2,
    pick 20 [] rootGe10 0 (.intGen 5) ctxFree = some (v, n2, 1, ctx2) ∧
    0 < n2.children.length ∧
    n2.children.length = rootGe10.children.length := by
  refine ⟨_, _, _, rfl, ?_, ?_⟩
  · exact (pick_routing 19 [] rootGe10 0 (.intGen 5) ctxFree
      _ _ _ _ rfl).2.1
  · exact (pick_routing 19 [] rootGe10 0 (.intGen 5) ctxFree
      _ _ _ _ rfl).2.2.2.2.2.1 (by decide)

/-! ## Claim C2 — the integer-halving scenario -/

/-- Counterexample to C2 as stated: in the scenario (root generating an
integer 100 with the halving shrinker, predicate-as-generator returning
`value >= 10`), `shrink` does return success with 4 tries, but the value
regenerated afterwards at the integer node is 6, not 12: the loop rejects
candidates 50, 25, 12 (the predicate returned true on them) and accepts
the first candidate on which the generated boolean is false, namely 6. -/
theorem shrink_ge10_counterexample :
    (shrink 20 30 rootGe10 scenarioGe10).map (fun r => (r.1, r.2.1)) =
      some (true, 4) ∧
    ((shrink 20 30 rootGe10 scenarioGe10).bind fun r =>
      (nodeAt r.2.2 [0]).bind fun c =>
        (regenerate 30 [0] c ctxFree).map (fun y => y.1)) =
      some (.vint 6) ∧
    some (Val.vint 6) ≠ some (Val.vint 12) :=
  ⟨rfl, rfl, by decide⟩

/-- C2 amended: `shrink` returns success=true with tries = 4, and after
it returns, the value regenerated at the integer node (whose accepted
slot now carries the constant 6) is 6 — candidates 50, 25, 12 are
*rejected* because the predicate-as-generator returned true on them, and
6 is accepted as the first candidate yielding false. -/
theorem shrink_ge10_amended :
    (shrink 20 30 rootGe10 scenarioGe10).map (fun r => (r.1, r.2.1)) =
      some (true, 4) ∧
    ((shrink 20 30 rootGe10 scenarioGe10).bind fun r =>
      (nodeAt r.2.2 [0]).map (fun c => c.data.acceptedGen)) =
      some (some (.const (.vint 6))) ∧
    ((shrink 20 30 rootGe10 scenarioGe10).bind fun r =>
      (nodeAt r.2.2 [0]).bind fun c =>
        (regenerate 30 [0] c ctxFree).map (fun y => y.1)) =
      some (.vint 6) :=
  ⟨rfl, rfl, rfl⟩

/-! ## Claim C3 — exhausted shrink is not an error, but does write slots -/

/-- Counterexample to C3 as stated: in the scenario (root generating 0
with the halving shrinker, always-true predicate) `shrink` returns
(false, 1) as claimed, but the call does *not* leave every node's
accepted slot and shrink iterator unchanged: the child's accepted slot
goes from empty to a snapshot of its integer generator. -/
theorem shrink_true0_counterexample :
    (shrink 5 30 rootTrue0 scenarioTrue0).map (fun r => (r.1, r.2.1)) =
      some (false, 1) ∧
    (nodeAt rootTrue0 [0]).map (fun c => c.data.acceptedGen) =
      some none ∧
    ((shrink 5 30 rootTrue0 scenarioTrue0).bind fun r =>
      (nodeAt r.2.2 [0]).map (fun c => c.data.acceptedGen)) =
      some (some (.intGen 0)) ∧
    (some (some (Gen.intGen 0)) : Option (Option Gen)) ≠ some none :=
  ⟨rfl, rfl, rfl, by decide⟩

/-- C3 amended: `shrink` returns (false, 1); the atoms, the set of
children, the shrunk slots and the regenerated value are unchanged, but
the call installs shrink iterators (exhausted ones) and accepted-slot
snapshots at the root and at the child. -/
theorem shrink_true0_amended : ∃ r,
    shrink 5 30 rootTrue0 scenarioTrue0 = some (false, 1, r) ∧
    atomAt r [] = atomAt rootTrue0 [] ∧
    atomAt r [0] = atomAt rootTrue0 [0] ∧
    r.children.length = rootTrue0.children.length ∧
    ((nodeAt r [0]).map fun c => c.children.length) = some 0 ∧
    (generate 30 [] r scenarioTrue0 ctxFree).map (fun y => y.1) =
      some (.vbool true) ∧
    (generate 30 [] rootTrue0 scenarioTrue0 ctxFree).map (fun y => y.1) =
      some (.vbool true) ∧
    r.data.shrunkGen = none ∧
    ((nodeAt r [0]).map fun c => c.data.shrunkGen) = some none ∧
    r.data.acceptedGen = some scenarioTrue0 ∧
    r.data.shrinkIter = some .null ∧
    ((nodeAt r [0]).map fun c => c.data.acceptedGen) =
      some (some (.intGen 0)) ∧
    ((nodeAt r [0]).map fun c => c.data.shrinkIter) =
      some (some (.divByTwo ⟨0⟩)) := by
  exact ⟨_, rfl, rfl, rfl, rfl, rfl, rfl, rfl, rfl, rfl, rfl, rfl, rfl, rfl⟩

/-! ## Claim C1 — the shrink loop accepts once and returns -/

/-- Counterexample to C1 as stated: with the always-false
predicate-as-generator (every proposed shrink keeps reproducing the
failure), the code's `shrink` accepts the very first proposal (candidate
50) and returns (true, 1): the pass that ended the call *did* install a
proposal (the claim says shrink returns only when a pass installs no
proposal), and running one more pass on the returned tree still installs
a proposal whose boolean is false (so the loop stopped although, by the
claim, it should have repeated and accepted further shrinks). -/
theorem shrink_single_accept_counterexample :
    (shrink 10 12 rootFalse100 scenarioFalse100).map
      (fun r => (r.1, r.2.1)) = some (true, 1) ∧
    ((generate 12 [] rootFalse100 scenarioFalse100 ctxPass).map fun y =>
      (y.1, y.2.2.shrunkNode)) = some (.vbool false, some [0]) ∧
    ((shrink 10 12 rootFalse100 scenarioFalse100).bind fun r =>
      (nodeAt r.2.2 [0]).map fun c => c.data.acceptedGen) =
      some (some (.const (.vint 50))) ∧
    ((shrink 10 12 rootFalse100 scenarioFalse100).bind fun r =>
      (generate 12 [] r.2.2 scenarioFalse100 ctxPass).map fun y =>
        (y.1, y.2.2.shrunkNode)) = some (.vbool false, some [0]) :=
  ⟨rfl, rfl, rfl, rfl⟩

/-- Characterisation of the loop of `RoseNode::shrink` with an arbitrary
tries accumulator: a successful return is preceded by `t - k - 1` passes
that each installed a proposal and generated true (rejections), after
which the final pass either installs no proposal (then the result is
`(false, t)` and the tree is the final pass's output) or installs one and
generates false (then that single proposal is accepted at the proposing
node and the result is `(true, t)` — the loop does not continue). -/
theorem shrinkAux_spec : ∀ (passes genFuel : Nat) (root : RoseNode)
    (g : Gen) (k : Nat) (s : Bool) (t : Nat) (r : RoseNode),
    shrinkAux passes genFuel root g k = some (s, t, r) →
    k < t ∧ ∃ r0, rejectedPasses (t - k - 1) genFuel root g = some r0 ∧
      ∃ v r1 ctx1, generate genFuel [] r0 g ctxPass = some (v, r1, ctx1) ∧
        ((s = false ∧ ctx1.shrunkNode = none ∧ r = r1) ∨
         (s = true ∧ ∃ p, ctx1.shrunkNode = some p ∧ v.asBool = false ∧
           r = updateAt r1 p acceptShrink)) := by
  intro passes
  induction passes with
  | zero => intro genFuel root g k s t r h; simp [shrinkAux] at h
  | succ passes ih =>
    intro genFuel root g k s t r h
    simp only [shrinkAux] at h
    split at h
    · simp at h
    · rename_i v root' ctx' hg
      split at h
      · rename_i hnone
        simp only [Option.some.injEq, Prod.mk.injEq] at h
        obtain ⟨hs, ht, hr⟩ := h
        subst hs; subst ht; subst hr
        refine ⟨by omega, root, ?_,
          v, root', ctx', hg, Or.inl ⟨rfl, hnone, rfl⟩⟩
        rw [show k + 1 - k - 1 = 0 by omega]
        rfl
      · rename_i p hp
        split at h
        · rename_i htrue
          obtain ⟨hkt, r0, hrej, rest⟩ := ih genFuel root' g (k + 1) s t r h
          refine ⟨by omega, r0, ?_, rest⟩
          rw [show t - k - 1 = (t - (k + 1) - 1) + 1 by omega]
          simp only [rejectedPasses, hg]
          rw [if_pos ⟨by rw [hp]; simp, htrue⟩]
          exact hrej
        · rename_i hfalse
          simp only [Option.some.injEq, Prod.mk.injEq] at h
          obtain ⟨hs, ht, hr⟩ := h
          subst hs; subst ht; subst hr
          refine ⟨by omega, root, ?_, v, root', ctx', hg,
            Or.inr ⟨rfl, p, hp, by simpa using hfalse, rfl⟩⟩
          rw [show k + 1 - k - 1 = 0 by omega]
          rfl

/-- C1 amended: `RoseNode::shrink` repeats *only while rejecting*
(proposal installed and boolean true); when a pass installs a proposal
and the boolean is false it accepts that one proposal at the proposing
node and returns immediately with success = true and the tries count —
it does not drive to a fixpoint; it returns (false, tries) exactly when a
pass installs no proposal, in which case nothing is accepted. -/
theorem shrink_loop_spec (passes genFuel : Nat) (root : RoseNode) (g : Gen)
    (s : Bool) (t : Nat) (r : RoseNode)
    (h : shrink passes genFuel root g = some (s, t, r)) :
    1 ≤ t ∧ ∃ r0, rejectedPasses (t - 1) genFuel root g = some r0 ∧
      ∃ v r1 ctx1, generate genFuel [] r0 g ctxPass = some (v, r1, ctx1) ∧
        ((s = false ∧ ctx1.shrunkNode = none ∧ r = r1) ∨
         (s = true ∧ ∃ p, ctx1.shrunkNode = some p ∧ v.asBool = false ∧
           r = updateAt r1 p acceptShrink)) := by
  have hs := shrinkAux_spec passes genFuel root g 0 s t r h
  obtain ⟨h1, r0, h2, h3⟩ := hs
  exact ⟨by omega, r0, by simpa using h2, h3⟩

/-- Witness for `shrink_loop_spec` at the C2 scenario: the call returns
(true, 4) after three rejected passes. -/
theorem shrink_loop_spec_witness :
    ∃ s t r, shrink 20 30 rootGe10 scenarioGe10 = some (s, t, r) ∧
      1 ≤ t ∧
      ∃ r0, rejectedPasses (t - 1) 30 rootGe10 scenarioGe10 = some r0 := by
  obtain ⟨ht, r0, hrej, -⟩ :=
    shrink_loop_spec 20 30 rootGe10 scenarioGe10 true 4 _ rfl
  exact ⟨true, 4, _, rfl, ht, r0, hrej⟩

/-! ## Claim C6 — atom stability -/

@[simp]
theorem RoseNode.withChildren_withChildren (n : RoseNode)
    (cs cs' : List RoseNode) :
    (n.withChildren cs).withChildren cs' = n.withChildren cs' := by
  cases n; rfl

theorem atomAt_fields_eq (n m : RoseNode)
    (h1 : m.data.hasAtom = n.data.hasAtom)
    (h2 : m.data.atomVal = n.data.atomVal)
    (h3 : m.children = n.children) :
    ∀ q, atomAt m q = atomAt n q := by
  intro q
  cases q with
  | nil => simp [atomAt, h1, h2]
  | cons i p => simp [atomAt, h3]

theorem atomAt_setLast (n : RoseNode) (g : Gen) (q : Path) :
    atomAt (setLast n g) q = atomAt n q :=
  atomAt_fields_eq n (setLast n g) (by simp) (by simp) (by simp) q

theorem atomAt_armShrink (n : RoseNode) (g : Gen) (v : Val) (q : Path) :
    atomAt (armShrink n g v) q = atomAt n q :=
  atomAt_fields_eq n (armShrink n g v) (by simp) (by simp) (by simp) q

theorem atomAt_installShrunk (n : RoseNode) (cand : Val) (it' : SIter)
    (q : Path) : atomAt (installShrunk n cand it') q = atomAt n q :=
  atomAt_fields_eq n (installShrunk n cand it') (by simp) (by simp)
    (by simp) q

theorem atomAt_clearShrunk (n : RoseNode) (q : Path) :
    atomAt (clearShrunk n) q = atomAt n q :=
  atomAt_fields_eq n (clearShrunk n) (by simp) (by simp) (by simp) q

theorem atomAt_append_fresh (n : RoseNode) (q : Path) (x : Bool × Nat)
    (h : atomAt n q = some x) :
    atomAt (n.withChildren (n.children ++ [freshNode])) q = some x := by
  cases q with
  | nil => simpa [atomAt] using h
  | cons i p =>
    simp only [atomAt] at h
    split at h
    · exact absurd h (by simp)
    · rename_i c hc
      have hi : i < n.children.length := by
        by_contra hcon
        rw [List.get?_eq_none.mpr (by omega)] at hc
        exact Option.noConfusion hc
      simp only [atomAt, RoseNode.children_withChildren]
      rw [List.get?_append hi, hc]
      exact h

theorem atomAt_set (n : RoseNode) (idx : Nat) (c c' : RoseNode)
    (hc : n.children.get? idx = some c)
    (hpres : ∀ p x, atomAt c p = some x → atomAt c' p = some x) :
    ∀ q x, atomAt n q = some x →
      atomAt (n.withChildren (n.children.set idx c')) q = some x := by
  intro q x h
  cases q with
  | nil => simpa [atomAt] using h
  | cons i p =>
    simp only [atomAt] at h
    split at h
    · exact absurd h (by simp)
    · rename_i ci hci
      simp only [atomAt, RoseNode.children_withChildren]
      by_cases hii : i = idx
      · subst hii
        have hcc : ci = c := by
          rw [hci] at hc
          exact (Option.some.injEq _ _ ▸ hc).symm ▸ rfl
        have hi : i < n.children.length := by
          by_contra hcon
          rw [List.get?_eq_none.mpr (by omega)] at hci
          exact Option.noConfusion hci
        rw [List.get?_set_eq_of_lt c' hi]
        subst hcc
        exact hpres p x h
      · rw [List.get?_set_ne _ _ (fun he => hii he.symm), hci]
        exact h

/-- Running any engine operation preserves every cached atom in the tree:
the atom state at every existing path survives (new paths may appear, but
no `m_hasAtom`/`m_atom` pair ever changes). -/
theorem atoms_preserved : ∀ fuel : Nat,
    (∀ path n g ctx v n' ctx',
      generate fuel path n g ctx = some (v, n', ctx') →
      ∀ q x, atomAt n q = some x → atomAt n' q = some x) ∧
    (∀ path n ctx v n' ctx',
      tryNext fuel path n ctx = some (v, n', ctx') →
      ∀ q x, atomAt n q = some x → atomAt n' q = some x) ∧
    (∀ path n ctx v n' ctx',
      regenerate fuel path n ctx = some (v, n', ctx') →
      ∀ q x, atomAt n q = some x → atomAt n' q = some x) ∧
    (∀ path n idx g ctx v n' idx' ctx',
      produce fuel path n idx g ctx = some (v, n', idx', ctx') →
      ∀ q x, atomAt n q = some x → atomAt n' q = some x) ∧
    (∀ path n idx g ctx v n' idx' ctx',
      pick fuel path n idx g ctx = some (v, n', idx', ctx') →
      ∀ q x, atomAt n q = some x → atomAt n' q = some x) := by
  intro fuel
  induction fuel with
  | zero =>
    refine ⟨?_, ?_, ?_, ?_, ?_⟩
    · intro path n g ctx v n' ctx' h; simp [generate] at h
    · intro path n ctx v n' ctx' h; simp [tryNext] at h
    · intro path n ctx v n' ctx' h; simp [regenerate] at h
    · intro path n idx g ctx v n' idx' ctx' h; simp [produce] at h
    · intro path n idx g ctx v n' idx' ctx' h; simp [pick] at h
  | succ fuel ih =>
    obtain ⟨ihg, iht, ihr, ihp, ihpk⟩ := ih
    refine ⟨?_, ?_, ?_, ?_, ?_⟩
    · intro path n g ctx v n' ctx' h q x ha
      simp only [generate] at h
      split at h
      · split at h
        · split at h
          · exact absurd h (by simp)
          · rename_i v0 n1 ctx1 hreg
            have s2 := ihr _ _ _ _ _ _ hreg q x
              ((atomAt_setLast n g q).symm ▸ ha)
            split at h
            · exact iht _ _ _ _ _ _ h q x
                ((atomAt_armShrink n1 g v0 q).symm ▸ s2)
            · simp only [Option.some.injEq, Prod.mk.injEq] at h
              obtain ⟨-, hn, -⟩ := h
              exact hn ▸ s2
        · exact iht _ _ _ _ _ _ h q x ((atomAt_setLast n g q).symm ▸ ha)
      · exact ihr _ _ _ _ _ _ h q x ((atomAt_setLast n g q).symm ▸ ha)
    · intro path n ctx v n' ctx' h q x ha
      simp only [tryNext] at h
      split at h
      · exact absurd h (by simp)
      · rename_i it hit
        split at h
        · exact ihr _ _ _ _ _ _ h q x
            ((atomAt_installShrunk n it.next.1 it.next.2 q).symm ▸ ha)
        · exact ihr _ _ _ _ _ _ h q x
            ((atomAt_clearShrunk n q).symm ▸ ha)
    · intro path n ctx v n' ctx' h q x ha
      simp only [regenerate] at h
      split at h
      · exact absurd h (by simp)
      · rename_i g hact
        split at h
        · exact absurd h (by simp)
        · rename_i w m j cx hp
          simp only [Option.some.injEq, Prod.mk.injEq] at h
          obtain ⟨-, hn, -⟩ := h
          exact hn ▸ ihp _ _ _ _ _ _ _ _ _ hp q x ha
    · intro path n idx g ctx v n' idx' ctx' h q x ha
      cases g with
      | const w =>
        simp only [produce, Option.some.injEq, Prod.mk.injEq] at h
        obtain ⟨-, hn, -, -⟩ := h
        exact hn ▸ ha
      | intGen w =>
        simp only [produce, Option.some.injEq, Prod.mk.injEq] at h
        obtain ⟨-, hn, -, -⟩ := h
        exact hn ▸ ha
      | pred p inner =>
        simp only [produce] at h
        split at h
        · exact absurd h (by simp)
        · rename_i w m j cx hp
          simp only [Option.some.injEq, Prod.mk.injEq] at h
          obtain ⟨-, hn, -, -⟩ := h
          exact hn ▸ ihpk _ _ _ _ _ _ _ _ _ hp q x ha
      | pairSum g1 g2 =>
        simp only [produce] at h
        split at h
        · exact absurd h (by simp)
        · rename_i w1 m1 j1 cx1 hp1
          split at h
          · exact absurd h (by simp)
          · rename_i w2 m2 j2 cx2 hp2
            simp only [Option.some.injEq, Prod.mk.injEq] at h
            obtain ⟨-, hn, -, -⟩ := h
            exact hn ▸ ihpk _ _ _ _ _ _ _ _ _ hp2 q x
              (ihpk _ _ _ _ _ _ _ _ _ hp1 q x ha)
    · intro path n idx g ctx v n' idx' ctx' h q x ha
      by_cases hlen : n.children.length ≤ idx
      · simp only [pick, hlen, if_true, RoseNode.children_withChildren] at h
        split at h
        · exact absurd h (by simp)
        · rename_i c hc
          split at h
          · exact absurd h (by simp)
          · rename_i w c' cx hg
            simp only [Option.some.injEq, Prod.mk.injEq] at h
            obtain ⟨-, hn, -, -⟩ := h
            have hbase := atomAt_append_fresh n q x ha
            have hres := atomAt_set
              (n.withChildren (n.children ++ [freshNode])) idx c c'
              (by simpa using hc)
              (fun p y hy => ihg _ _ _ _ _ _ _ hg p y hy) q x hbase
            rw [← hn]
            simpa using hres
      · simp only [pick, not_le.mpr (by omega : idx < n.children.length),
          if_false] at h
        split at h
        · exact absurd h (by simp)
        · rename_i c hc
          split at h
          · exact absurd h (by simp)
          · rename_i w c' cx hg
            simp only [Option.some.injEq, Prod.mk.injEq] at h
            obtain ⟨-, hn, -, -⟩ := h
            have hres := atomAt_set n idx c c' hc
              (fun p y hy => ihg _ _ _ _ _ _ _ hg p y hy) q x ha
            rw [← hn]
            exact hres

/-- C6: once an atom has been drawn at a node (`m_hasAtom` set), every
later `atom()` call returns the same cached value without consulting the
random engine, and any number of engine operations (regenerations)
preserve the cached atom of every node in the tree. -/
theorem atom_stable (n : RoseNode) (re : RandomEngine) :
    (n.data.hasAtom = true → n.atom re = (n.data.atomVal, n, re)) ∧
    ((n.atom re).2.1).data.hasAtom = true ∧
    (∀ re' : RandomEngine,
      ((n.atom re).2.1).atom re' = ((n.atom re).1, (n.atom re).2.1, re')) ∧
    (∀ fuel path g ctx v n' ctx',
      generate fuel path n g ctx = some (v, n', ctx') →
      ∀ q x, atomAt n q = some x → atomAt n' q = some x) := by
  refine ⟨?_, ?_, ?_, ?_⟩
  · intro h; simp [RoseNode.atom, h]
  · cases hA : n.data.hasAtom <;>
      simp [RoseNode.atom, hA, RandomEngine.nextAtom]
  · intro re'
    cases hA : n.data.hasAtom <;>
      simp [RoseNode.atom, hA, RandomEngine.nextAtom]
  · intro fuel path g ctx v n' ctx' h q x ha
    exact (atoms_preserved fuel).1 path n g ctx v n' ctx' h q x ha

/-- A concrete random engine for the atom witness. -/
def egEngine : RandomEngine := ⟨fun k => k + 40, 0⟩

/-- A concrete node with a cached atom. -/
def egAtomNode : RoseNode := .mk { hasAtom := true, atomVal := 7 } []

/-- Witness for `atom_stable`: at a node with a cached atom, `atom`
returns the cache and leaves the engine untouched; and a concrete
`generate` run preserves the (empty) atom state of the C2 tree. -/
theorem atom_stable_witness :
    egAtomNode.data.hasAtom = true ∧
    egAtomNode.atom egEngine = (7, egAtomNode, egEngine) ∧
    (∃ n' : RoseNode,
      (generate 30 [] rootGe10 scenarioGe10 ctxFree).map (fun y => y.2.1) =
        some n' ∧
      atomAt n' [0] = some (false, 0)) := by
  refine ⟨rfl, (atom_stable egAtomNode egEngine).1 rfl, ?_⟩
  refine ⟨_, rfl, ?_⟩
  exact (atom_stable rootGe10 egEngine).2.2.2 30 [] scenarioGe10 ctxFree
    _ _ _ rfl [0] (false, 0) rfl

/-! ## Claim C8 — context evolution and idempotence after exhaustion -/

/-- How the ambient `ShrunkNode` state can change across one engine call:
either it is untouched, or some node installed a proposal (the binding
flag itself is never changed by the engine). -/
def CtxStep (c c' : Ctx) : Prop :=
  c' = c ∨ (c'.shrunkBound = c.shrunkBound ∧ ∃ q, c'.shrunkNode = some q)

theorem ctxStep_refl (c : Ctx) : CtxStep c c := Or.inl rfl

theorem ctxStep_trans {a b c : Ctx} (h1 : CtxStep a b) (h2 : CtxStep b c) :
    CtxStep a c := by
  rcases h2 with rfl | ⟨hb, q, hq⟩
  · exact h1
  · rcases h1 with rfl | ⟨hb1, q1, hq1⟩
    · exact Or.inr ⟨hb, q, hq⟩
    · exact Or.inr ⟨hb.trans hb1, q, hq⟩

theorem ctxStep_none {c c' : Ctx} (h : CtxStep c c')
    (hn : c'.shrunkNode = none) : c' = c := by
  rcases h with rfl | ⟨-, q, hq⟩
  · rfl
  · rw [hq] at hn; exact absurd hn (by simp)

@[simp] theorem ctxPass_shrunkBound : ctxPass.shrunkBound = true := rfl

@[simp] theorem ctxPass_shrunkNode : ctxPass.shrunkNode = none := rfl

/-- The engine never clears an installed proposal within a pass and never
touches the binding flag. -/
theorem ctx_evolution : ∀ fuel : Nat,
    (∀ path n g ctx v n' ctx',
      generate fuel path n g ctx = some (v, n', ctx') → CtxStep ctx ctx') ∧
    (∀ path n ctx v n' ctx',
      tryNext fuel path n ctx = some (v, n', ctx') → CtxStep ctx ctx') ∧
    (∀ path n ctx v n' ctx',
      regenerate fuel path n ctx = some (v, n', ctx') → CtxStep ctx ctx') ∧
    (∀ path n idx g ctx v n' idx' ctx',
      produce fuel path n idx g ctx = some (v, n', idx', ctx') →
        CtxStep ctx ctx') ∧
    (∀ path n idx g ctx v n' idx' ctx',
      pick fuel path n idx g ctx = some (v, n', idx', ctx') →
        CtxStep ctx ctx') := by
  intro fuel
  induction fuel with
  | zero =>
    refine ⟨?_, ?_, ?_, ?_, ?_⟩
    · intro path n g ctx v n' ctx' h; simp [generate] at h
    · intro path n ctx v n' ctx' h; simp [tryNext] at h
    · intro path n ctx v n' ctx' h; simp [regenerate] at h
    · intro path n idx g ctx v n' idx' ctx' h; simp [produce] at h
    · intro path n idx g ctx v n' idx' ctx' h; simp [pick] at h
  | succ fuel ih =>
    obtain ⟨ihg, iht, ihr, ihp, ihpk⟩ := ih
    refine ⟨?_, ?_, ?_, ?_, ?_⟩
    · intro path n g ctx v n' ctx' h
      simp only [generate] at h
      split at h
      · split at h
        · split at h
          · exact absurd h (by simp)
          · rename_i v0 n1 ctx1 hreg
            split at h
            · exact ctxStep_trans (ihr _ _ _ _ _ _ hreg)
                (iht _ _ _ _ _ _ h)
            · simp only [Option.some.injEq, Prod.mk.injEq] at h
              obtain ⟨-, -, hc⟩ := h
              exact hc ▸ ihr _ _ _ _ _ _ hreg
        · exact iht _ _ _ _ _ _ h
      · exact ihr _ _ _ _ _ _ h
    · intro path n ctx v n' ctx' h
      simp only [tryNext] at h
      split at h
      · exact absurd h (by simp)
      · rename_i it hit
        split at h
        · have hin := ihr _ _ _ _ _ _ h
          rcases hin with rfl | ⟨hb, q, hq⟩
          · exact Or.inr ⟨rfl, path, rfl⟩
          · exact Or.inr ⟨hb, q, hq⟩
        · exact ihr _ _ _ _ _ _ h
    · intro path n ctx v n' ctx' h
      simp only [regenerate] at h
      split at h
      · exact absurd h (by simp)
      · rename_i g hact
        split at h
        · exact absurd h (by simp)
        · rename_i w m j cx hp
          simp only [Option.some.injEq, Prod.mk.injEq] at h
          obtain ⟨-, -, hc⟩ := h
          exact hc ▸ ihp _ _ _ _ _ _ _ _ _ hp
    · intro path n idx g ctx v n' idx' ctx' h
      cases g with
      | const w =>
        simp only [produce, Option.some.injEq, Prod.mk.injEq] at h
        obtain ⟨-, -, -, hc⟩ := h
        exact hc ▸ ctxStep_refl ctx
      | intGen w =>
        simp only [produce, Option.some.injEq, Prod.mk.injEq] at h
        obtain ⟨-, -, -, hc⟩ := h
        exact hc ▸ ctxStep_refl ctx
      | pred p inner =>
        simp only [produce] at h
        split at h
        · exact absurd h (by simp)
        · rename_i w m j cx hp
          simp only [Option.some.injEq, Prod.mk.injEq] at h
          obtain ⟨-, -, -, hc⟩ := h
          exact hc ▸ ihpk _ _ _ _ _ _ _ _ _ hp
      | pairSum g1 g2 =>
        simp only [produce] at h
        split at h
        · exact absurd h (by simp)
        · rename_i w1 m1 j1 cx1 hp1
          split at h
          · exact absurd h (by simp)
          · rename_i w2 m2 j2 cx2 hp2
            simp only [Option.some.injEq, Prod.mk.injEq] at h
            obtain ⟨-, -, -, hc⟩ := h
            exact hc ▸ ctxStep_trans (ihpk _ _ _ _ _ _ _ _ _ hp1)
              (ihpk _ _ _ _ _ _ _ _ _ hp2)
    · intro path n idx g ctx v n' idx' ctx' h
      simp only [pick] at h
      split at h
      · exact absurd h (by simp)
      · rename_i c hc
        split at h
        · exact absurd h (by simp)
        · rename_i w c' cx hg
          simp only [Option.some.injEq, Prod.mk.injEq] at h
          obtain ⟨-, -, -, hc2⟩ := h
          exact hc2 ▸ ihg _ _ _ _ _ _ _ hg

theorem list_set_self {α : Type _} (l : List α) (i : Nat) (a : α)
    (h : l.get? i = some a) : l.set i a = l := by
  induction l generalizing i with
  | nil => simp at h
  | cons x xs ih =>
    cases i with
    | zero =>
      simp only [List.get?] at h
      injection h with h
      simp [h]
    | succ i =>
      simp only [List.get?] at h
      simp only [List.set]
      rw [ih i h]

theorem activeGenerator_data_eq {m n : RoseNode} (h : m.data = n.data) :
    activeGenerator m = activeGenerator n := by
  unfold activeGenerator; rw [h]

theorem setLast_eq_self {n : RoseNode} {g : Gen}
    (h : n.data.lastGen = some g) : setLast n g = n := by
  cases n with
  | mk d cs =>
    cases d with
    | mk a av l ac sh it =>
      simp only [RoseNode.data] at h
      simp only [setLast, RoseNode.withData, RoseNode.data]
      simp_all

theorem clearShrunk_eq_self {n : RoseNode}
    (h : n.data.shrunkGen = none) : clearShrunk n = n := by
  cases n with
  | mk d cs =>
    cases d with
    | mk a av l ac sh it =>
      simp only [RoseNode.data] at h
      simp only [clearShrunk, RoseNode.withData, RoseNode.data]
      simp_all

/-- A pass that installs no proposal is idempotent: running the same
operation again on its output returns the same value, the same tree and
still installs no proposal.  (For `pick`, the statement also records the
routing facts needed to replay a sibling-stable pick.) -/
theorem pass_idempotent : ∀ fuel : Nat,
    (∀ path n g v n',
      generate fuel path n g ctxPass = some (v, n', ctxPass) →
      generate fuel path n' g ctxPass = some (v, n', ctxPass)) ∧
    (∀ path n v n',
      regenerate fuel path n ctxPass = some (v, n', ctxPass) →
      regenerate fuel path n' ctxPass = some (v, n', ctxPass)) ∧
    (∀ path n idx g v n' idx',
      produce fuel path n idx g ctxPass = some (v, n', idx', ctxPass) →
      produce fuel path n' idx g ctxPass = some (v, n', idx', ctxPass)) ∧
    (∀ path n idx g v n2 idx2,
      pick fuel path n idx g ctxPass = some (v, n2, idx2, ctxPass) →
      idx2 = idx + 1 ∧ idx < n2.children.length ∧
      n.children.length ≤ n2.children.length ∧
      (∀ j, j ≠ idx → n2.children.get? j = n.children.get? j) ∧
      (∀ m : RoseNode, m.children.get? idx = n2.children.get? idx →
        idx < m.children.length →
        pick fuel path m idx g ctxPass = some (v, m, idx + 1, ctxPass))) := by
  intro fuel
  induction fuel using Nat.strong_induction_on with
  | _ fuel ih =>
    cases fuel with
    | zero =>
      refine ⟨?_, ?_, ?_, ?_⟩
      · intro path n g v n' h; simp [generate] at h
      · intro path n v n' h; simp [regenerate] at h
      · intro path n idx g v n' idx' h; simp [produce] at h
      · intro path n idx g v n2 idx2 h; simp [pick] at h
    | succ fuel =>
      have hcond : ctxPass.shrunkBound = true ∧ ctxPass.shrunkNode = none :=
        ⟨rfl, rfl⟩
      refine ⟨?_, ?_, ?_, ?_⟩
      · -- generate
        intro path n g v n' h
        simp only [generate] at h ⊢
        rw [if_pos hcond] at h ⊢
        split at h
        · -- no live iterator: regenerate, then arm and try
          rename_i heqA
          split at h
          · exact absurd h (by simp)
          · rename_i v0 n1 ctx1 hreg
            split at h
            · -- no descendant proposal: armed iterator tried, exhausted
              rename_i hc1
              have hctx1 : ctx1 = ctxPass :=
                ctxStep_none ((ctx_evolution fuel).2.2.1
                  _ _ _ _ _ _ hreg) hc1
              subst hctx1
              cases fuel with
              | zero => simp [tryNext] at h
              | succ u =>
                simp only [tryNext, armShrink_shrinkIter] at h
                split at h
                · rename_i hNext
                  exfalso
                  have hstep := (ctx_evolution u).2.2.1 _ _ _ _ _ _ h
                  rcases hstep with heq | ⟨-, q, hq⟩
                  · have := congrArg Ctx.shrunkNode heq
                    simp at this
                  · simp at hq
                · rename_i hNext
                  have hn1d := regenerate_data_eq _ _ _ _ _ _ _ hreg
                  have hnd := regenerate_data_eq _ _ _ _ _ _ _ h
                  have hlast : n'.data.lastGen = some g := by
                    have h1 := congrArg NodeData.lastGen hnd
                    have h2 := congrArg NodeData.lastGen hn1d
                    simp only [clearShrunk_lastGen, armShrink_lastGen] at h1
                    simp only [setLast_lastGen] at h2
                    rw [h1, h2]
                  have hiter : n'.data.shrinkIter = some (g.shrinkOf v0) := by
                    have h1 := congrArg NodeData.shrinkIter hnd
                    simp only [clearShrunk_shrinkIter,
                      armShrink_shrinkIter] at h1
                    exact h1
                  have hshr : n'.data.shrunkGen = none := by
                    have h1 := congrArg NodeData.shrunkGen hnd
                    simp only [clearShrunk_shrunkGen] at h1
                    exact h1
                  have htry : tryNext (u + 1) path n' ctxPass =
                      some (v, n', ctxPass) := by
                    simp only [tryNext, hiter]
                    rw [if_neg hNext, clearShrunk_eq_self hshr]
                    exact (ih u (by omega)).2.1 _ _ _ _ h
                  rw [setLast_eq_self hlast, hiter]
                  simpa using htry
            · -- descendant proposal would contradict a clean pass
              rename_i hc1
              simp only [Option.some.injEq, Prod.mk.injEq] at h
              obtain ⟨-, -, hcc⟩ := h
              exact absurd (by rw [hcc]; rfl : ctx1.shrunkNode = none) hc1
        · -- live iterator on entry
          rename_i it hit
          cases fuel with
          | zero => simp [tryNext] at h
          | succ u =>
            simp only [tryNext] at h
            split at h
            · exact absurd h (by simp)
            · rename_i it2 hit2
              split at h
              · rename_i hNext
                exfalso
                have hstep := (ctx_evolution u).2.2.1 _ _ _ _ _ _ h
                rcases hstep with heq | ⟨-, q, hq⟩
                · have := congrArg Ctx.shrunkNode heq
                  simp at this
                · simp at hq
              · rename_i hNext
                have hnd := regenerate_data_eq _ _ _ _ _ _ _ h
                have hlast : n'.data.lastGen = some g := by
                  have h1 := congrArg NodeData.lastGen hnd
                  simp only [clearShrunk_lastGen, setLast_lastGen] at h1
                  exact h1
                have hiter : n'.data.shrinkIter = some it2 := by
                  have h1 := congrArg NodeData.shrinkIter hnd
                  simp only [clearShrunk_shrinkIter] at h1
                  rw [h1, hit2]
                have hshr : n'.data.shrunkGen = none := by
                  have h1 := congrArg NodeData.shrunkGen hnd
                  simp only [clearShrunk_shrunkGen] at h1
                  exact h1
                have htry : tryNext (u + 1) path n' ctxPass =
                    some (v, n', ctxPass) := by
                  simp only [tryNext, hiter]
                  rw [if_neg hNext, clearShrunk_eq_self hshr]
                  exact (ih u (by omega)).2.1 _ _ _ _ h
                rw [setLast_eq_self hlast, hiter]
                simpa using htry
      · -- regenerate
        intro path n v n' h
        simp only [regenerate] at h
        split at h
        · exact absurd h (by simp)
        · rename_i G hact
          split at h
          · exact absurd h (by simp)
          · rename_i w m j cx hp
            simp only [Option.some.injEq, Prod.mk.injEq] at h
            obtain ⟨rfl, rfl, rfl⟩ := h
            have hact2 : activeGenerator m = some G :=
              (activeGenerator_data_eq
                (produce_data_eq _ _ _ _ _ _ _ _ _ _ hp)).trans hact
            have hstab := (ih fuel (by omega)).2.2.1 _ _ _ _ _ _ _ hp
            simp only [regenerate, hact2, hstab]
      · -- produce
        intro path n idx g v n' idx' h
        cases g with
        | const w =>
          simp only [produce, Option.some.injEq, Prod.mk.injEq] at h
          obtain ⟨hv, hn, hidx, -⟩ := h
          subst hv; subst hn; subst hidx
          simp [produce]
        | intGen w =>
          simp only [produce, Option.some.injEq, Prod.mk.injEq] at h
          obtain ⟨hv, hn, hidx, -⟩ := h
          subst hv; subst hn; subst hidx
          simp [produce]
        | pred p0 inner =>
          simp only [produce] at h
          split at h
          · exact absurd h (by simp)
          · rename_i w m j cx hp
            simp only [Option.some.injEq, Prod.mk.injEq] at h
            obtain ⟨rfl, rfl, rfl, rfl⟩ := h
            obtain ⟨hj1, hlt, -, -, hstab⟩ :=
              (ih fuel (by omega)).2.2.2 _ _ _ _ _ _ _ hp
            subst hj1
            have h1 := hstab m rfl hlt
            simp only [produce, h1]
        | pairSum g1 g2 =>
          simp only [produce] at h
          split at h
          · exact absurd h (by simp)
          · rename_i w1 m1 j1 cx1 hp1
            split at h
            · exact absurd h (by simp)
            · rename_i w2 m2 j2 cx2 hp2
              simp only [Option.some.injEq, Prod.mk.injEq] at h
              obtain ⟨rfl, rfl, rfl, rfl⟩ := h
              have hcx1 : cx1 = ctxPass :=
                (ctxStep_none ((ctx_evolution fuel).2.2.2.2
                  _ _ _ _ _ _ _ _ _ hp2) rfl).symm
              subst hcx1
              obtain ⟨hj1, hlt1, hmono1, hside1, hstab1⟩ :=
                (ih fuel (by omega)).2.2.2 _ _ _ _ _ _ _ hp1
              subst hj1
              obtain ⟨hj2, hlt2, hmono2, hside2, hstab2⟩ :=
                (ih fuel (by omega)).2.2.2 _ _ _ _ _ _ _ hp2
              subst hj2
              have hg1 : pick fuel path m2 idx g1 ctxPass =
                  some (w1, m2, idx + 1, ctxPass) := by
                apply hstab1 m2 ?_ ?_
                · exact (hside2 idx (by omega)).symm ▸ rfl
                · omega
              have hg2 : pick fuel path m2 (idx + 1) g2 ctxPass =
                  some (w2, m2, idx + 1 + 1, ctxPass) :=
                hstab2 m2 rfl hlt2
              simp only [produce, hg1, hg2]
      · -- pick
        intro path n idx g v n2 idx2 h
        by_cases hlen : n.children.length ≤ idx
        · simp only [pick, hlen, if_true,
            RoseNode.children_withChildren] at h
          split at h
          · exact absurd h (by simp)
          · rename_i c hc
            have hk : idx = n.children.length := by
              rcases Nat.lt_or_ge idx (n.children.length + 1) with hk1 | hk1
              · omega
              · exfalso
                rw [List.get?_eq_none.mpr (by simpa using hk1)] at hc
                exact Option.noConfusion hc
            split at h
            · exact absurd h (by simp)
            · rename_i w c' cx hg
              simp only [Option.some.injEq, Prod.mk.injEq] at h
              obtain ⟨hw, hn2, hidx2, hcx⟩ := h
              subst hw; subst hidx2; subst hcx
              have hch : n2.children = (n.children ++ [freshNode]).set idx c' := by
                rw [← hn2]; simp
              have hlen2 : n2.children.length = n.children.length + 1 := by
                rw [hch]; simp
              have hat : n2.children.get? idx = some c' := by
                rw [hch]
                rw [List.get?_set_eq_of_lt c' (by simp; omega)]
              refine ⟨rfl, by omega, by omega, ?_, ?_⟩
              · intro j hj
                rw [hch, List.get?_set_ne _ _ (fun he => hj he.symm)]
                rcases Nat.lt_or_ge j n.children.length with hj1 | hj1
                · exact List.get?_append hj1
                · rw [List.get?_eq_none.mpr hj1,
                    List.get?_append_right hj1]
                  have hj2 : 1 ≤ j - n.children.length := by omega
                  rw [List.get?_eq_none.mpr (by simpa using hj2)]
              · intro m hmget hmlt
                have hmget' : m.children.get? idx = some c' := by
                  rw [hmget, hat]
                have hstabgen := (ih fuel (by omega)).1 _ _ _ _ _ hg
                simp only [pick]
                rw [if_neg (not_le.mpr hmlt)]
                simp only [hmget', hstabgen]
                rw [list_set_self _ _ _ hmget',
                  RoseNode.withChildren_children]
        · push_neg at hlen
          simp only [pick, not_le.mpr hlen, if_false] at h
          split at h
          · exact absurd h (by simp)
          · rename_i c hc
            split at h
            · exact absurd h (by simp)
            · rename_i w c' cx hg
              simp only [Option.some.injEq, Prod.mk.injEq] at h
              obtain ⟨hw, hn2, hidx2, hcx⟩ := h
              subst hw; subst hidx2; subst hcx
              have hch : n2.children = n.children.set idx c' := by
                rw [← hn2]; simp
              have hlen2 : n2.children.length = n.children.length := by
                rw [hch]; simp
              have hat : n2.children.get? idx = some c' := by
                rw [hch, List.get?_set_eq_of_lt c' hlen]
              refine ⟨rfl, by omega, by omega, ?_, ?_⟩
              · intro j hj
                rw [hch, List.get?_set_ne _ _ (fun he => hj he.symm)]
              · intro m hmget hmlt
                have hmget' : m.children.get? idx = some c' := by
                  rw [hmget, hat]
                have hstabgen := (ih fuel (by omega)).1 _ _ _ _ _ hg
                simp only [pick]
                rw [if_neg (not_le.mpr hmlt)]
                simp only [hmget', hstabgen]
                rw [list_set_self _ _ _ hmget',
                  RoseNode.withChildren_children]

/-- C8: after `RoseNode::shrink(g)` returns (false, n), calling it again
with the same generator returns (false, 1) and the returned tree is the
same tree — no accepted value, shrink iterator, atom or child changes, so
the second call performs no observable mutation at all. -/
theorem shrink_idempotent_after_failure (passes genFuel passes2 : Nat)
    (root : RoseNode) (g : Gen) (t : Nat) (r : RoseNode)
    (h : shrink passes genFuel root g = some (false, t, r))
    (hp2 : 0 < passes2) :
    shrink passes2 genFuel r g = some (false, 1, r) := by
  obtain ⟨-, r0, -, v, r1, ctx1, hgen, hcase⟩ :=
    shrinkAux_spec passes genFuel root g 0 false t r h
  rcases hcase with ⟨-, hnone, rfl⟩ | ⟨hfalse, -⟩
  · have hctx1 : ctx1 = ctxPass :=
      ctxStep_none ((ctx_evolution genFuel).1 _ _ _ _ _ _ _ hgen) hnone
    subst hctx1
    have hstab := (pass_idempotent genFuel).1 _ _ _ _ _ hgen
    obtain ⟨k, rfl⟩ : ∃ k, passes2 = k + 1 := ⟨passes2 - 1, by omega⟩
    simp only [shrink, shrinkAux, hstab]
    rfl
  · exact absurd hfalse (by simp)

/-- Witness for `shrink_idempotent_after_failure`: in the C3 scenario the
first call returns (false, 1, r) and the second call returns the same
tree with (false, 1). -/
theorem shrink_idempotent_after_failure_witness :
    ∃ r, shrink 5 30 rootTrue0 scenarioTrue0 = some (false, 1, r) ∧
      shrink 5 30 r scenarioTrue0 = some (false, 1, r) := by
  refine ⟨_, rfl, ?_⟩
  exact shrink_idempotent_after_failure 5 30 5 rootTrue0 scenarioTrue0
    1 _ rfl (by omega)

end RapidCheck
